import Mathlib

/-!
Shallow embedding of `src/main.rs` of `dirr`, a directory-tree enumerator:
recursive traversal with per-component exclusion matching (`generate_tree`,
`is_excluded`), size formatting (`format_file_size`), relative-time
formatting (`format_time`) and line rendering (`print_tree`).

Modeling conventions:
- Paths are modeled as their lists of components, i.e. the result of
  splitting the path string on the platform separator, which is how
  `is_excluded` consumes paths.
- A compiled exclusion pattern is modeled abstractly as its `is_match`
  function `String → Bool`; a small executable engine for the regex
  fragment actually exercised by the program (literal characters, the
  any-character dot, and the postfix star) instantiates it where the
  claims name concrete patterns.
- `u64` sizes are `Nat`; `size as f64` is modeled exactly by `fl53`
  (round to nearest, ties to even, at 53 significant bits), after which
  division by a power of 1024 and Rust's two-decimal `{:.2}` rendering
  are exact operations on dyadic rationals, modeled by `fmtFrac2`.
- Timestamps are whole seconds since the epoch as `Int`; only the
  in-range arm of chrono's `timestamp_opt` is modeled, since no claim
  exercises the out-of-range placeholder.
-/

/-- One atom of the modeled regular-expression fragment: a literal
character or the any-character wildcard written as a dot. -/
inductive RAtom where
  | ch : Char → RAtom
  | dot : RAtom
deriving DecidableEq

/-- One piece of a modeled regular expression: an atom matched exactly
once, or an atom under the Kleene star. -/
inductive RPiece where
  | once : RAtom → RPiece
  | star : RAtom → RPiece
deriving DecidableEq

/-- Classify one pattern character as an atom. -/
def atomOf (c : Char) : RAtom := if c = '.' then RAtom.dot else RAtom.ch c

/-- Parser for the modeled regex fragment, mirroring `Regex::new` on the
patterns the program's documentation and the spec exercise.  A star with
no preceding atom is a compile error (`none`), exactly as the regex crate
rejects patterns such as the one made of a star, the three letters tmp,
and another star. -/
def parseRegex : List Char → Option (List RPiece)
  | [] => some []
  | '*' :: _ => none
  | c :: '*' :: rest => (parseRegex rest).map (fun ps => RPiece.star (atomOf c) :: ps)
  | c :: rest => (parseRegex rest).map (fun ps => RPiece.once (atomOf c) :: ps)

/-- `Regex::new` on the modeled fragment: parse or fail. -/
def Regex.new (pat : String) : Option (List RPiece) := parseRegex pat.data

/-- Does an atom match one character. -/
def atomMatch : RAtom → Char → Bool
  | RAtom.dot, _ => true
  | RAtom.ch c, d => c == d

/-- Match a regex against an exact leading segment of the character list.
The explicit fuel only makes the recursion structural; every recursive
call strictly shrinks `ps.length + cs.length`, so fuel
`ps.length + cs.length + 1` computes the true (fuel-free) answer. -/
def matchFuel : Nat → List RPiece → List Char → Bool
  | 0, _, _ => false
  | _ + 1, [], _ => true
  | _ + 1, RPiece.once _ :: _, [] => false
  | f + 1, RPiece.once a :: ps, c :: cs => atomMatch a c && matchFuel f ps cs
  | f + 1, RPiece.star _ :: ps, [] => matchFuel f ps []
  | f + 1, RPiece.star a :: ps, c :: cs =>
    matchFuel f ps (c :: cs) || (atomMatch a c && matchFuel f (RPiece.star a :: ps) cs)

/-- Unanchored search: does the regex match starting at any position. -/
def searchFrom : List RPiece → List Char → Bool
  | ps, [] => matchFuel (ps.length + 1) ps []
  | ps, c :: cs =>
    matchFuel (ps.length + (c :: cs).length + 1) ps (c :: cs) || searchFrom ps cs

/-- `Regex::is_match`: unanchored substring-style search in a string. -/
def regexIsMatch (ps : List RPiece) (s : String) : Bool := searchFrom ps s.data

/-- The pattern-compilation loop of `main`: each raw pattern string is
handed directly to `Regex::new`; the first compilation failure makes
`main` print an error and return before any traversal, modeled as `none`.
The source applies no transformation of any kind to the pattern first. -/
def compilePatterns : List String → Option (List (List RPiece))
  | [] => some []
  | p :: ps =>
    match Regex.new p with
    | none => none
    | some r => (compilePatterns ps).map (fun rs => r :: rs)

/-- Claimed-behavior definition following the spec's words, not the
source: translate a glob by replacing every star character with a dot
followed by a star.  The source contains no such translation; this
definition exists only to compare the claimed behavior with the code. -/
def specGlobTranslate (pat : String) : String :=
  String.mk (pat.data.foldr (fun c acc => if c = '*' then '.' :: '*' :: acc else c :: acc) [])

/-- `is_excluded` from the source: split the path into components and
return true when any component matches any compiled pattern. -/
def is_excluded (p : List String) (exclude : List (String → Bool)) : Bool :=
  p.any (fun comp => exclude.any (fun re => re comp))

/-- Floor of the base-2 logarithm, with explicit fuel so the recursion is
structural; 64 steps suffice for any u64 value. -/
def floorLog2Aux : Nat → Nat → Nat
  | 0, _ => 0
  | f + 1, n => if n ≤ 1 then 0 else floorLog2Aux f (n / 2) + 1

/-- Floor of the base-2 logarithm for u64-range values. -/
def floorLog2 (n : Nat) : Nat := floorLog2Aux 64 n

/-- The value of `n as f64` for a u64 `n`: exact below 2^53, otherwise
rounded to 53 significant bits, to nearest with ties to even. -/
def fl53 (n : Nat) : Nat :=
  if n < 9007199254740992 then n
  else
    let s := floorLog2 n - 52
    let q := n / 2 ^ s
    let r := n % 2 ^ s
    let q2 :=
      if 2 * r < 2 ^ s then q
      else if 2 ^ s < 2 * r then q + 1
      else if q % 2 = 0 then q else q + 1
    q2 * 2 ^ s

/-- The integer closest to `100 * num / den`, ties to even: the count of
hundredths printed by Rust's two-decimal formatting of the exact value
`num / den`. -/
def round2h (num den : Nat) : Nat :=
  let q := 100 * num / den
  let r := 100 * num % den
  if 2 * r < den then q
  else if den < 2 * r then q + 1
  else if q % 2 = 0 then q else q + 1

/-- Left-pad a two-digit fractional part with a zero. -/
def pad2 (k : Nat) : String := if k < 10 then "0" ++ toString k else toString k

/-- Exact two-decimal rendering of `num / den`, as Rust's `{:.2}` format
produces for a value that is exactly `num / den`. -/
def fmtFrac2 (num den : Nat) : String :=
  toString (round2h num den / 100) ++ "." ++ pad2 (round2h num den % 100)

/-- `format_file_size` from the source: thresholds at powers of 1024 on
the integer size, then `size as f64` (modeled by `fl53`) divided by the
unit and printed with two decimals. -/
def format_file_size (size : Nat) : String :=
  if size < 1024 then toString size ++ " B"
  else if size < 1048576 then fmtFrac2 (fl53 size) 1024 ++ " KB"
  else if size < 1073741824 then fmtFrac2 (fl53 size) 1048576 ++ " MB"
  else fmtFrac2 (fl53 size) 1073741824 ++ " GB"

/-- Claimed-behavior definition following the claim's words, not the
source: the exact value `n` over the unit rendered to two decimals, with
no f64 conversion of `n` anywhere. -/
def claimFormatSize (size : Nat) : String :=
  if size < 1024 then toString size ++ " B"
  else if size < 1048576 then fmtFrac2 size 1024 ++ " KB"
  else if size < 1073741824 then fmtFrac2 size 1048576 ++ " MB"
  else fmtFrac2 size 1073741824 ++ " GB"

/-- `format_time` from the source, as a function of the file modification
time and the current time, in whole seconds since the epoch.  chrono's
`num_minutes`, `num_hours` and `num_days` truncate toward zero; in every
branch where they are called the elapsed time is positive, where `Int`
division agrees with truncation toward zero. -/
def format_time (fileSecs nowSecs : Int) : String :=
  let elapsed := nowSecs - fileSecs
  if elapsed < 60 then "just now"
  else if elapsed < 3600 then toString (elapsed / 60) ++ " minutes ago"
  else if elapsed < 86400 then toString (elapsed / 3600) ++ " hours ago"
  else toString (elapsed / 86400) ++ " days ago"

/-- `Path::strip_` followed by the word for a leading part, as used by
`print_tree`: remove the root's components from the front of the path,
failing when they do not all lead it. -/
def stripRoot : List String → List String → Option (List String)
  | [], p => some p
  | _ :: _, [] => none
  | r :: rs, c :: cs => if r = c then stripRoot rs cs else none

/-- `str::repeat`: `k` copies of `s` concatenated. -/
def strRepeat : Nat → String → String
  | 0, _ => ""
  | k + 1, s => s ++ strRepeat k s

/-- One line of `print_tree` for path `p` under `root`; `metaInfo` stands
for the metadata suffix (empty when metadata display is off).  `none`
models the silently skipped path whose root removal fails.  For `p = root`
the Rust `depth - 1` underflows `usize`; the claims only concern traversal
results, which lie strictly under the root, so truncated subtraction is
never the reached behavior. -/
def print_line (root p : List String) (metaInfo : String) : Option String :=
  match stripRoot root p with
  | none => none
  | some display =>
    some (strRepeat (display.length - 1) "|   " ++ "|--"
      ++ String.intercalate ("/") display ++ metaInfo)

mutual
/-- A filesystem node: `file` is any non-directory entry (on which
`read_dir` fails and `is_dir` is false); `dirFail` is a directory whose
`read_dir` call fails; `dir es` is a directory whose `read_dir` yields
the listing `es`. -/
inductive FS where
  | file : FS
  | dirFail : FS
  | dir : Entries → FS
/-- A directory listing as enumerated by `read_dir`: a sequence of entry
results in filesystem order.  `err rest` is an entry result that is an
`Err`; the walker's question-mark operator propagates it, so `rest` is
never reached. -/
inductive Entries where
  | nil : Entries
  | err : Entries → Entries
  | cons : String → FS → Entries → Entries
end

/-- `Path::is_dir`: true for directories, readable or not. -/
def FS.isDir : FS → Bool
  | FS.file => false
  | FS.dirFail => true
  | FS.dir _ => true

mutual
/-- `generate_tree` from the source.  `px` is the component list of the
path whose directory is being read; the path of an entry named `name`
is `px ++ [name]`.  A failed `read_dir` — on a non-directory, on an
unreadable directory, root included — is swallowed by the `if let Ok`,
yielding an empty `Ok` result.  An `Err` entry result propagates as an
error through the question-mark operator, discarding everything
accumulated so far, exactly as in the source. -/
def generate_tree (px : List String) (exclude : List (String → Bool)) :
    FS → Except Unit (List (List String))
  | FS.file => Except.ok []
  | FS.dirFail => Except.ok []
  | FS.dir es => walkEntries px exclude es

/-- The entry loop of `generate_tree`: for each entry, skip it entirely
when excluded; otherwise push its path and, when it is a directory,
append the recursive walk's results. -/
def walkEntries (px : List String) (exclude : List (String → Bool)) :
    Entries → Except Unit (List (List String))
  | Entries.nil => Except.ok []
  | Entries.err _ => Except.error ()
  | Entries.cons name child rest =>
    if is_excluded (px ++ [name]) exclude then walkEntries px exclude rest
    else if child.isDir then
      match generate_tree (px ++ [name]) exclude child with
      | Except.error e => Except.error e
      | Except.ok sub =>
        match walkEntries px exclude rest with
        | Except.error e => Except.error e
        | Except.ok tail => Except.ok ((px ++ [name]) :: (sub ++ tail))
    else
      match walkEntries px exclude rest with
      | Except.error e => Except.error e
      | Except.ok tail => Except.ok ((px ++ [name]) :: tail)
end

mutual
/-- Every directory reachable by recursive descent reads successfully and
every enumerated entry result is `Ok`: the error-free regime in which the
unrestricted-descent claim is stated. -/
def readsOk : FS → Bool
  | FS.file => true
  | FS.dirFail => false
  | FS.dir es => entriesOk es

/-- Listing counterpart of `readsOk`. -/
def entriesOk : Entries → Bool
  | Entries.nil => true
  | Entries.err _ => false
  | Entries.cons _ child rest => readsOk child && entriesOk rest
end

/-- The names of the `Ok` entries of a listing, in order. -/
def namesOf : Entries → List String
  | Entries.nil => []
  | Entries.err rest => namesOf rest
  | Entries.cons name _ rest => name :: namesOf rest

/-- Executable no-duplicates test. -/
def nodupB (l : List String) : Bool := decide l.Nodup

mutual
/-- Sibling names are distinct in every directory reachable by descent —
the invariant every real filesystem provides. -/
def uniqNames : FS → Bool
  | FS.file => true
  | FS.dirFail => true
  | FS.dir es => nodupB (namesOf es) && entsUniq es

/-- Listing counterpart of `uniqNames`. -/
def entsUniq : Entries → Bool
  | Entries.nil => true
  | Entries.err rest => entsUniq rest
  | Entries.cons _ child rest => uniqNames child && entsUniq rest
end

mutual
/-- Claimed-behavior definition following the spec's words: the pre-order
depth-first enumeration of every node reachable from the node at path
`px` by unrestricted recursive descent — each directory first, then all
of its descendants, then its later siblings. -/
def specPreorder (px : List String) : FS → List (List String)
  | FS.file => []
  | FS.dirFail => []
  | FS.dir es => specPreorderEntries px es

/-- Listing counterpart of `specPreorder`. -/
def specPreorderEntries (px : List String) : Entries → List (List String)
  | Entries.nil => []
  | Entries.err rest => specPreorderEntries px rest
  | Entries.cons name child rest =>
    (px ++ [name]) :: (specPreorder (px ++ [name]) child ++ specPreorderEntries px rest)
end

/-- The entry named `n` with subtree `c` occurs in the listing. -/
inductive EntMem : String → FS → Entries → Prop where
  | here : ∀ n c rest, EntMem n c (Entries.cons n c rest)
  | there : ∀ n c n2 c2 rest, EntMem n c rest → EntMem n c (Entries.cons n2 c2 rest)
  | behindErr : ∀ n c rest, EntMem n c rest → EntMem n c (Entries.err rest)

/-- The path `q` is reachable from the node `fs` located at path `px` by
recursive descent: it is the path of an entry of `fs`, or reachable from
the subtree of such an entry. -/
inductive Reaches : List String → FS → List String → Prop where
  | child : ∀ px es n c, EntMem n c es → Reaches px (FS.dir es) (px ++ [n])
  | deep : ∀ px es n c q, EntMem n c es → Reaches (px ++ [n]) c q →
      Reaches px (FS.dir es) q

/-- A small concrete filesystem used by witnesses, after the spec's §8
scenario: the root contains a directory named a holding a file named
b.txt, and a directory named c holding a directory named tmp holding a
file named d.txt. -/
def sampleFS : FS :=
  FS.dir (Entries.cons ("a") (FS.dir (Entries.cons ("b.txt") FS.file Entries.nil))
    (Entries.cons ("c")
      (FS.dir (Entries.cons ("tmp")
        (FS.dir (Entries.cons ("d.txt") FS.file Entries.nil)) Entries.nil))
      Entries.nil))

/-- With no compiled patterns nothing is excluded. -/
theorem is_excluded_nil (p : List String) : is_excluded p [] = false := by
  simp [is_excluded]

/-- Exclusion is monotone under component containment: any path holding
all components of an excluded path is itself excluded. -/
theorem is_excluded_subset {p q : List String} {pats : List (String → Bool)}
    (hsub : p ⊆ q) (h : is_excluded p pats = true) : is_excluded q pats = true := by
  simp only [is_excluded, List.any_eq_true] at h ⊢
  obtain ⟨c, hc, hm⟩ := h
  exact ⟨c, hsub hc, hm⟩

theorem nodupB_iff (l : List String) : nodupB l = true ↔ l.Nodup := by
  simp [nodupB]

theorem fl53_of_lt {n : Nat} (h : n < 9007199254740992) : fl53 n = n := by
  simp [fl53, h]

theorem strRepeat_length (k : Nat) (s : String) :
    (strRepeat k s).length = k * s.length := by
  induction k with
  | zero => simp [strRepeat]
  | succ k ih => simp [strRepeat, ih]; ring

theorem stripRoot_append (root t : List String) :
    stripRoot root (root ++ t) = some t := by
  induction root with
  | nil => simp [stripRoot]
  | cons r rs ih => simpa [stripRoot] using ih

theorem FS_sizeOf_pos (fs : FS) : 0 < sizeOf fs := by
  cases fs <;> simp

theorem Entries_sizeOf_pos (es : Entries) : 0 < sizeOf es := by
  cases es <;> simp

/-- Joint induction workhorse: every path in an `Ok` result of the walker
fails `is_excluded` — the walker never emits an excluded path. -/
theorem walkAux_not_excluded : ∀ N : Nat,
    (∀ fs : FS, sizeOf fs ≤ N → ∀ (px : List String) (ex : List (String → Bool)) res,
      generate_tree px ex fs = Except.ok res → ∀ q ∈ res, is_excluded q ex = false)
    ∧ (∀ es : Entries, sizeOf es ≤ N → ∀ (px : List String) (ex : List (String → Bool)) res,
      walkEntries px ex es = Except.ok res → ∀ q ∈ res, is_excluded q ex = false) := by
  intro N
  induction N with
  | zero =>
    constructor
    · intro fs hsz
      have := FS_sizeOf_pos fs
      omega
    · intro es hsz
      have := Entries_sizeOf_pos es
      omega
  | succ N ih =>
    constructor
    · intro fs hsz px ex res hok q hq
      cases fs with
      | file =>
        simp [generate_tree] at hok
        subst hok
        simp at hq
      | dirFail =>
        simp [generate_tree] at hok
        subst hok
        simp at hq
      | dir es =>
        rw [generate_tree] at hok
        have hsz2 : sizeOf es ≤ N := by simp at hsz; omega
        exact ih.2 es hsz2 px ex res hok q hq
    · intro es hsz px ex res hok q hq
      cases es with
      | nil =>
        simp [walkEntries] at hok
        subst hok
        simp at hq
      | err rest =>
        simp [walkEntries] at hok
      | cons name child rest =>
        have hszc : sizeOf child ≤ N := by simp at hsz; omega
        have hszr : sizeOf rest ≤ N := by simp at hsz; omega
        rw [walkEntries] at hok
        cases hex : is_excluded (px ++ [name]) ex with
        | true =>
          rw [hex] at hok
          simp only [if_pos] at hok
          exact ih.2 rest hszr px ex res hok q hq
        | false =>
          rw [hex] at hok
          simp only [Bool.false_eq_true, if_neg, if_false] at hok
          cases hd : child.isDir with
          | false =>
            rw [hd] at hok
            simp only [Bool.false_eq_true, if_neg, if_false] at hok
            cases hw : walkEntries px ex rest with
            | error e => rw [hw] at hok; simp at hok
            | ok tail =>
              rw [hw] at hok
              simp only [Except.ok.injEq] at hok
              subst hok
              rcases List.mem_cons.mp hq with rfl | hq2
              · exact hex
              · exact ih.2 rest hszr px ex tail hw q hq2
          | true =>
            rw [hd] at hok
            simp only [if_pos] at hok
            cases hg : generate_tree (px ++ [name]) ex child with
            | error e => rw [hg] at hok; simp at hok
            | ok sub =>
              rw [hg] at hok
              cases hw : walkEntries px ex rest with
              | error e => rw [hw] at hok; simp at hok
              | ok tail =>
                rw [hw] at hok
                simp only [Except.ok.injEq] at hok
                subst hok
                rcases List.mem_cons.mp hq with rfl | hq2
                · exact hex
                · rcases List.mem_append.mp hq2 with hqs | hqt
                  · exact ih.1 child hszc (px ++ [name]) ex sub hg q hqs
                  · exact ih.2 rest hszr px ex tail hw q hqt

/-- Joint induction workhorse: in the error-free regime with no patterns,
the walker returns exactly the spec's pre-order enumeration. -/
theorem walkAux_preorder : ∀ N : Nat,
    (∀ fs : FS, sizeOf fs ≤ N → readsOk fs = true → ∀ px : List String,
      generate_tree px [] fs = Except.ok (specPreorder px fs))
    ∧ (∀ es : Entries, sizeOf es ≤ N → entriesOk es = true → ∀ px : List String,
      walkEntries px [] es = Except.ok (specPreorderEntries px es)) := by
  intro N
  induction N with
  | zero =>
    constructor
    · intro fs hsz
      have := FS_sizeOf_pos fs
      omega
    · intro es hsz
      have := Entries_sizeOf_pos es
      omega
  | succ N ih =>
    constructor
    · intro fs hsz hro px
      cases fs with
      | file => simp [generate_tree, specPreorder]
      | dirFail => simp [readsOk] at hro
      | dir es =>
        have hsz2 : sizeOf es ≤ N := by simp at hsz; omega
        rw [generate_tree, specPreorder]
        exact ih.2 es hsz2 (by simpa [readsOk] using hro) px
    · intro es hsz hro px
      cases es with
      | nil => simp [walkEntries, specPreorderEntries]
      | err rest => simp [entriesOk] at hro
      | cons name child rest =>
        have hszc : sizeOf child ≤ N := by simp at hsz; omega
        have hszr : sizeOf rest ≤ N := by simp at hsz; omega
        rw [entriesOk, Bool.and_eq_true] at hro
        obtain ⟨hc, hr⟩ := hro
        rw [walkEntries, specPreorderEntries]
        rw [is_excluded_nil (px ++ [name])]
        simp only [Bool.false_eq_true, if_false]
        cases child with
        | file =>
          simp only [FS.isDir, Bool.false_eq_true, if_false]
          rw [ih.2 rest hszr hr px]
          simp [specPreorder]
        | dirFail => simp [readsOk] at hc
        | dir ces =>
          simp only [FS.isDir, if_true]
          rw [ih.1 (FS.dir ces) hszc hc (px ++ [name])]
          rw [ih.2 rest hszr hr px]

/-- Joint induction workhorse: each enumerated path extends the base path
by a first component that is one of the listing's entry names. -/
theorem specAux_shape : ∀ N : Nat,
    (∀ fs : FS, sizeOf fs ≤ N → ∀ (px q : List String), q ∈ specPreorder px fs →
      ∃ nm t, q = px ++ nm :: t)
    ∧ (∀ es : Entries, sizeOf es ≤ N → ∀ (px q : List String), q ∈ specPreorderEntries px es →
      ∃ nm t, q = px ++ nm :: t ∧ nm ∈ namesOf es) := by
  intro N
  induction N with
  | zero =>
    constructor
    · intro fs hsz
      have := FS_sizeOf_pos fs
      omega
    · intro es hsz
      have := Entries_sizeOf_pos es
      omega
  | succ N ih =>
    constructor
    · intro fs hsz px q hq
      cases fs with
      | file => simp [specPreorder] at hq
      | dirFail => simp [specPreorder] at hq
      | dir es =>
        have hsz2 : sizeOf es ≤ N := by simp at hsz; omega
        rw [specPreorder] at hq
        obtain ⟨nm, t, hqe, _⟩ := ih.2 es hsz2 px q hq
        exact ⟨nm, t, hqe⟩
    · intro es hsz px q hq
      cases es with
      | nil => simp [specPreorderEntries] at hq
      | err rest =>
        have hszr : sizeOf rest ≤ N := by simp at hsz; omega
        rw [specPreorderEntries] at hq
        obtain ⟨nm, t, hqe, hnm⟩ := ih.2 rest hszr px q hq
        exact ⟨nm, t, hqe, by simpa [namesOf] using hnm⟩
      | cons name child rest =>
        have hszc : sizeOf child ≤ N := by simp at hsz; omega
        have hszr : sizeOf rest ≤ N := by simp at hsz; omega
        rw [specPreorderEntries] at hq
        rcases List.mem_cons.mp hq with rfl | hq2
        · exact ⟨name, [], rfl, by simp [namesOf]⟩
        · rcases List.mem_append.mp hq2 with hqs | hqt
          · obtain ⟨nm, t, hqe⟩ := ih.1 child hszc (px ++ [name]) q hqs
            refine ⟨name, nm :: t, ?_, by simp [namesOf]⟩
            simpa using hqe
          · obtain ⟨nm, t, hqe, hnm⟩ := ih.2 rest hszr px q hqt
            exact ⟨nm, t, hqe, by simp [namesOf, hnm]⟩

/-- Joint induction workhorse: with distinct sibling names everywhere, the
spec's pre-order enumeration has no duplicates. -/
theorem specAux_nodup : ∀ N : Nat,
    (∀ fs : FS, sizeOf fs ≤ N → uniqNames fs = true → ∀ px : List String,
      (specPreorder px fs).Nodup)
    ∧ (∀ es : Entries, sizeOf es ≤ N → nodupB (namesOf es) = true → entsUniq es = true →
      ∀ px : List String, (specPreorderEntries px es).Nodup) := by
  intro N
  induction N with
  | zero =>
    constructor
    · intro fs hsz
      have := FS_sizeOf_pos fs
      omega
    · intro es hsz
      have := Entries_sizeOf_pos es
      omega
  | succ N ih =>
    constructor
    · intro fs hsz hu px
      cases fs with
      | file => simp [specPreorder]
      | dirFail => simp [specPreorder]
      | dir es =>
        have hsz2 : sizeOf es ≤ N := by simp at hsz; omega
        rw [uniqNames, Bool.and_eq_true] at hu
        rw [specPreorder]
        exact ih.2 es hsz2 hu.1 hu.2 px
    · intro es hsz hnd hu px
      cases es with
      | nil => simp [specPreorderEntries]
      | err rest =>
        have hszr : sizeOf rest ≤ N := by simp at hsz; omega
        rw [specPreorderEntries]
        rw [namesOf] at hnd
        rw [entsUniq] at hu
        exact ih.2 rest hszr hnd hu px
      | cons name child rest =>
        have hszc : sizeOf child ≤ N := by simp at hsz; omega
        have hszr : sizeOf rest ≤ N := by simp at hsz; omega
        rw [entsUniq, Bool.and_eq_true] at hu
        obtain ⟨hc, hr⟩ := hu
        rw [namesOf] at hnd
        have hnd2 := (nodupB_iff _).mp hnd
        rw [List.nodup_cons] at hnd2
        obtain ⟨hnmem, hrest_nodup⟩ := hnd2
        rw [specPreorderEntries, List.nodup_cons]
        constructor
        · intro hmem
          rcases List.mem_append.mp hmem with hqs | hqt
          · obtain ⟨nm, t, hqe⟩ := (specAux_shape (sizeOf child)).1 child le_rfl (px ++ [name]) _ hqs
            have := congrArg List.length hqe
            simp at this
          · obtain ⟨nm, t, hqe, hnm⟩ := (specAux_shape (sizeOf rest)).2 rest le_rfl px _ hqt
            have h2 : ([name] : List String) = nm :: t := by
              have := hqe
              rwa [List.append_cancel_left_eq] at this
            rw [List.cons.injEq] at h2
            exact hnmem (h2.1 ▸ hnm)
        · rw [List.nodup_append]
          refine ⟨ih.1 child hszc hc (px ++ [name]), ih.2 rest hszr ((nodupB_iff _).mpr hrest_nodup) hr px, ?_⟩
          intro q hqs hqt
          obtain ⟨nm1, t1, hqe1⟩ := (specAux_shape (sizeOf child)).1 child le_rfl (px ++ [name]) q hqs
          obtain ⟨nm2, t2, hqe2, hnm2⟩ := (specAux_shape (sizeOf rest)).2 rest le_rfl px q hqt
          have hqe1b : q = px ++ name :: (nm1 :: t1) := by simpa using hqe1
          rw [hqe1b] at hqe2
          rw [List.append_cancel_left_eq, List.cons.injEq] at hqe2
          exact hnmem (hqe2.1 ▸ hnm2)

/-- Inversion: an entry behind an err entry result is in the remainder. -/
theorem entMem_err_inv {n : String} {c : FS} {rest : Entries} :
    EntMem n c (Entries.err rest) → EntMem n c rest
  | EntMem.behindErr _ _ _ h => h

/-- Inversion for membership in a cons listing. -/
theorem entMem_cons_inv {n name : String} {c child : FS} {rest : Entries} :
    EntMem n c (Entries.cons name child rest) → (n = name ∧ c = child) ∨ EntMem n c rest
  | EntMem.here _ _ _ => Or.inl ⟨rfl, rfl⟩
  | EntMem.there _ _ _ _ _ h => Or.inr h

/-- Joint induction workhorse: membership in the spec's pre-order
enumeration is exactly reachability by recursive descent. -/
theorem specAux_reaches : ∀ N : Nat,
    (∀ fs : FS, sizeOf fs ≤ N → ∀ (px q : List String),
      q ∈ specPreorder px fs ↔ Reaches px fs q)
    ∧ (∀ es : Entries, sizeOf es ≤ N → ∀ (px q : List String),
      q ∈ specPreorderEntries px es ↔
        ∃ nm c, EntMem nm c es ∧ (q = px ++ [nm] ∨ Reaches (px ++ [nm]) c q)) := by
  intro N
  induction N with
  | zero =>
    constructor
    · intro fs hsz
      have := FS_sizeOf_pos fs
      omega
    · intro es hsz
      have := Entries_sizeOf_pos es
      omega
  | succ N ih =>
    constructor
    · intro fs hsz px q
      cases fs with
      | file =>
        simp only [specPreorder, List.not_mem_nil, false_iff]
        intro h
        cases h
      | dirFail =>
        simp only [specPreorder, List.not_mem_nil, false_iff]
        intro h
        cases h
      | dir es =>
        have hsz2 : sizeOf es ≤ N := by simp at hsz; omega
        rw [specPreorder, ih.2 es hsz2 px q]
        constructor
        · rintro ⟨nm, c, hmem, rfl | hr⟩
          · exact Reaches.child px es nm c hmem
          · exact Reaches.deep px es nm c q hmem hr
        · intro h
          cases h with
          | child px es nm c hmem => exact ⟨nm, c, hmem, Or.inl rfl⟩
          | deep px es nm c q hmem hr => exact ⟨nm, c, hmem, Or.inr hr⟩
    · intro es hsz px q
      cases es with
      | nil =>
        simp only [specPreorderEntries, List.not_mem_nil, false_iff]
        rintro ⟨nm, c, hmem, _⟩
        cases hmem
      | err rest =>
        have hszr : sizeOf rest ≤ N := by simp at hsz; omega
        rw [specPreorderEntries, ih.2 rest hszr px q]
        constructor
        · rintro ⟨nm, c, hmem, h⟩
          exact ⟨nm, c, EntMem.behindErr nm c rest hmem, h⟩
        · rintro ⟨nm, c, hmem, h⟩
          exact ⟨nm, c, entMem_err_inv hmem, h⟩
      | cons name child rest =>
        have hszc : sizeOf child ≤ N := by simp at hsz; omega
        have hszr : sizeOf rest ≤ N := by simp at hsz; omega
        rw [specPreorderEntries]
        constructor
        · intro hq
          rcases List.mem_cons.mp hq with rfl | hq2
          · exact ⟨name, child, EntMem.here name child rest, Or.inl rfl⟩
          · rcases List.mem_append.mp hq2 with hqs | hqt
            · exact ⟨name, child, EntMem.here name child rest,
                Or.inr ((ih.1 child hszc (px ++ [name]) q).mp hqs)⟩
            · obtain ⟨nm, c, hmem, h⟩ := (ih.2 rest hszr px q).mp hqt
              exact ⟨nm, c, EntMem.there nm c name child rest hmem, h⟩
        · rintro ⟨nm, c, hmem, h⟩
          rcases entMem_cons_inv hmem with ⟨rfl, rfl⟩ | hmem2
          · rcases h with rfl | hr
            · exact List.mem_cons_self _ _
            · refine List.mem_cons_of_mem _ (List.mem_append.mpr (Or.inl ?_))
              exact (ih.1 _ hszc (px ++ [nm]) q).mpr hr
          · refine List.mem_cons_of_mem _ (List.mem_append.mpr (Or.inr ?_))
            exact (ih.2 rest hszr px q).mpr ⟨nm, c, hmem2, h⟩

/-- C1: for every root path and an error-free root directory with
distinct sibling names, `generate_tree` with no exclusion patterns
returns exactly the pre-order depth-first enumeration of every file and
directory reachable by unrestricted recursive descent (`specPreorder`,
whose membership is exactly the `Reaches` descent relation), each exactly
once (the enumeration has no duplicates). -/
theorem generate_tree_preorder :
    ∀ (px : List String) (fs : FS), readsOk fs = true → uniqNames fs = true →
      generate_tree px [] fs = Except.ok (specPreorder px fs)
      ∧ (specPreorder px fs).Nodup
      ∧ (∀ q : List String, q ∈ specPreorder px fs ↔ Reaches px fs q) := by
  intro px fs hro hu
  exact ⟨(walkAux_preorder (sizeOf fs)).1 fs le_rfl hro px,
    (specAux_nodup (sizeOf fs)).1 fs le_rfl hu px,
    fun q => (specAux_reaches (sizeOf fs)).1 fs le_rfl px q⟩

/-- Witness for the unrestricted-walk claim at the spec's §8 scenario
tree. -/
theorem generate_tree_preorder_witness :
    generate_tree [("r")] [] sampleFS = Except.ok (specPreorder [("r")] sampleFS)
    ∧ (specPreorder [("r")] sampleFS).Nodup :=
  ⟨(generate_tree_preorder [("r")] sampleFS (by decide) (by decide)).1,
   (generate_tree_preorder [("r")] sampleFS (by decide) (by decide)).2.1⟩

/-- C2: no path of an `Ok` traversal result is excluded; consequently an
excluded path and every path extending it (in particular every descendant
of an excluded directory) are absent from the result; and exclusion
short-circuits descent — the walk never looks at the subtree of an
excluded entry, so replacing that subtree changes nothing. -/
theorem generate_tree_exclusion :
    ∀ (px : List String) (pats : List (String → Bool)) (fs : FS) (res : List (List String)),
      generate_tree px pats fs = Except.ok res →
      (∀ q ∈ res, is_excluded q pats = false)
      ∧ (∀ P q : List String, is_excluded P pats = true → P <+: q → q ∉ res)
      ∧ (∀ (nm : String) (c c2 : FS) (rest : Entries),
          is_excluded (px ++ [nm]) pats = true →
          walkEntries px pats (Entries.cons nm c rest)
            = walkEntries px pats (Entries.cons nm c2 rest)) := by
  intro px pats fs res hok
  have h1 : ∀ q ∈ res, is_excluded q pats = false :=
    (walkAux_not_excluded (sizeOf fs)).1 fs le_rfl px pats res hok
  refine ⟨h1, ?_, ?_⟩
  · intro P q hP hpre hq
    have h2 : is_excluded q pats = true := is_excluded_subset hpre.subset hP
    simp [h1 q hq] at h2
  · intro nm c c2 rest hex
    simp [walkEntries, hex]

/-- Witness for the exclusion claim: the spec's §8 scenario with the tmp
entry excluded; the retained path of the c directory is not excluded. -/
theorem generate_tree_exclusion_witness :
    is_excluded [("r"), ("c")] [fun s => s == ("tmp")] = false :=
  (generate_tree_exclusion [("r")] [fun s => s == ("tmp")] sampleFS
    [[("r"), ("a")], [("r"), ("a"), ("b.txt")], [("r"), ("c")]] rfl).1
    [("r"), ("c")] (by simp)

/-- C3: `is_excluded` holds exactly when some single path component
matches some pattern; with the compiled literal pattern tmp, the
unanchored search matches anywhere inside one component, so the
components my_tmp_dir and build_tmp_1 are excluded. -/
theorem is_excluded_component_iff :
    (∀ (p : List String) (pats : List (String → Bool)),
      is_excluded p pats = true ↔ ∃ comp ∈ p, ∃ m ∈ pats, m comp = true)
    ∧ (∃ r, Regex.new ("tmp") = some r
        ∧ is_excluded [("home"), ("my_tmp_dir")] [regexIsMatch r] = true
        ∧ is_excluded [("home"), ("build_tmp_1")] [regexIsMatch r] = true
        ∧ is_excluded [("home"), ("docs")] [regexIsMatch r] = false) := by
  constructor
  · intro p pats
    simp [is_excluded, List.any_eq_true]
  · exact ⟨[RPiece.once (RAtom.ch 't'), RPiece.once (RAtom.ch 'm'),
      RPiece.once (RAtom.ch 'p')], by decide, by decide, by decide, by decide⟩

/-- Witness for the component-matching claim at a concrete path and
matcher. -/
theorem is_excluded_component_iff_witness :
    is_excluded [("my_tmp_dir")] [fun s => s == ("my_tmp_dir")] = true :=
  (is_excluded_component_iff.1 [("my_tmp_dir")] [fun s => s == ("my_tmp_dir")]).mpr
    ⟨("my_tmp_dir"), by simp, fun s => s == ("my_tmp_dir"), by simp, by simp⟩

/-- C4 (divergence): `main` hands each raw pattern straight to the regex
engine with no glob translation, so the starred tmp pattern fails to
compile and aborts before traversal, whereas the spec's translated form
compiles and matches the component build_tmp_1. -/
theorem main_rejects_glob_star :
    compilePatterns [("*tmp*")] = none
    ∧ Regex.new ("*tmp*") = none
    ∧ specGlobTranslate ("*tmp*") = (".*tmp.*")
    ∧ (∃ r, Regex.new (".*tmp.*") = some r ∧ regexIsMatch r ("build_tmp_1") = true) := by
  refine ⟨by decide, by decide, by decide,
    ⟨[RPiece.star RAtom.dot, RPiece.once (RAtom.ch 't'), RPiece.once (RAtom.ch 'm'),
      RPiece.once (RAtom.ch 'p'), RPiece.star RAtom.dot], by decide, by decide⟩⟩

/-- C5 (counterexample): at this size the exact quotient by 1024 cubed
and the f64-converted quotient round to different hundredths, so the
code's output differs from the claim's exact formula. -/
theorem format_file_size_f64_divergence :
    format_file_size 1152921504612215685 ≠ claimFormatSize 1152921504612215685
    ∧ format_file_size 1152921504612215685 = "1073741824.01 GB"
    ∧ claimFormatSize 1152921504612215685 = "1073741824.00 GB" := by
  refine ⟨by decide, by decide, by decide⟩

/-- C5 (amended): the byte bucket prints the integer with unit B; each
fractional bucket prints the f64 value of the size divided by its unit to
two decimals, which agrees with the claim's exact `n` over the unit for
every size below 2 to the 53 (where the f64 conversion is exact), and in
particular on all the claim's concrete vectors. -/
theorem format_file_size_spec :
    (∀ n : Nat, n < 1024 → format_file_size n = toString n ++ " B")
    ∧ (∀ n : Nat, 1024 ≤ n → n < 1048576 → format_file_size n = fmtFrac2 n 1024 ++ " KB")
    ∧ (∀ n : Nat, 1048576 ≤ n → n < 1073741824 →
        format_file_size n = fmtFrac2 n 1048576 ++ " MB")
    ∧ (∀ n : Nat, 1073741824 ≤ n → n < 9007199254740992 →
        format_file_size n = fmtFrac2 n 1073741824 ++ " GB")
    ∧ (∀ n : Nat, 9007199254740992 ≤ n →
        format_file_size n = fmtFrac2 (fl53 n) 1073741824 ++ " GB")
    ∧ format_file_size 0 = "0 B"
    ∧ format_file_size 1023 = "1023 B"
    ∧ format_file_size 1024 = "1.00 KB"
    ∧ format_file_size 1048576 = "1.00 MB"
    ∧ format_file_size 1500000000 = "1.40 GB" := by
  refine ⟨?_, ?_, ?_, ?_, ?_, by decide, by decide, by decide, by decide, by decide⟩
  · intro n h
    simp [format_file_size, h]
  · intro n h1 h2
    rw [format_file_size, if_neg (by omega), if_pos h2, fl53_of_lt (by omega)]
  · intro n h1 h2
    rw [format_file_size, if_neg (by omega), if_neg (by omega), if_pos h2,
      fl53_of_lt (by omega)]
  · intro n h1 h2
    rw [format_file_size, if_neg (by omega), if_neg (by omega), if_neg (by omega),
      fl53_of_lt (by omega)]
  · intro n h1
    rw [format_file_size, if_neg (by omega), if_neg (by omega), if_neg (by omega)]

/-- Witness for the amended size-formatting claim in the KB bucket. -/
theorem format_file_size_spec_witness :
    format_file_size 2048 = fmtFrac2 2048 1024 ++ " KB" :=
  format_file_size_spec.2.1 2048 (by decide) (by decide)

/-- C6: the relative-time formatter buckets the elapsed time at one
minute, one hour and one day, printing the truncated unit count, and
matches the claim's concrete vectors (30 seconds, 90 seconds, two and a
half hours, three days). -/
theorem format_time_buckets :
    (∀ fileSecs nowSecs : Int, nowSecs - fileSecs < 60 →
      format_time fileSecs nowSecs = "just now")
    ∧ (∀ fileSecs nowSecs : Int, 60 ≤ nowSecs - fileSecs → nowSecs - fileSecs < 3600 →
      format_time fileSecs nowSecs = toString ((nowSecs - fileSecs) / 60) ++ " minutes ago")
    ∧ (∀ fileSecs nowSecs : Int, 3600 ≤ nowSecs - fileSecs → nowSecs - fileSecs < 86400 →
      format_time fileSecs nowSecs = toString ((nowSecs - fileSecs) / 3600) ++ " hours ago")
    ∧ (∀ fileSecs nowSecs : Int, 86400 ≤ nowSecs - fileSecs →
      format_time fileSecs nowSecs = toString ((nowSecs - fileSecs) / 86400) ++ " days ago")
    ∧ format_time 0 30 = "just now"
    ∧ format_time 0 90 = "1 minutes ago"
    ∧ format_time 0 9000 = "2 hours ago"
    ∧ format_time 0 259200 = "3 days ago" := by
  refine ⟨?_, ?_, ?_, ?_, by decide, by decide, by decide, by decide⟩
  · intro f n h
    simp only [format_time]
    rw [if_pos (by omega)]
  · intro f n h1 h2
    simp only [format_time]
    rw [if_neg (by omega), if_pos (by omega)]
  · intro f n h1 h2
    simp only [format_time]
    rw [if_neg (by omega), if_neg (by omega), if_pos (by omega)]
  · intro f n h1
    simp only [format_time]
    rw [if_neg (by omega), if_neg (by omega), if_neg (by omega)]

/-- Witness for the relative-time bucket claim in the minutes bucket. -/
theorem format_time_buckets_witness :
    format_time 0 120 = toString (((120 : Int) - 0) / 60) ++ " minutes ago" :=
  format_time_buckets.2.1 0 120 (by decide) (by decide)

/-- C7 (divergence): when the root's own directory read fails — the root
is missing, not a directory, or unreadable — `generate_tree` returns a
silent empty `Ok` result instead of surfacing an input-output error to
the caller. -/
theorem root_read_failure_silent :
    generate_tree [(".")] [] FS.dirFail = Except.ok []
    ∧ generate_tree [(".")] [] FS.file = Except.ok [] := ⟨rfl, rfl⟩

/-- C8: an unreadable nested directory is treated exactly as an empty
one: the walk of the unreadable directory yields `Ok` with nothing, and
within a listing the unreadable directory is still listed, no error
surfaces, and the sibling walk contributes every entry outside the
unreadable subtree. -/
theorem nested_unreadable_skipped :
    ∀ (px : List String) (pats : List (String → Bool)),
      generate_tree px pats FS.dirFail = Except.ok []
      ∧ generate_tree px pats FS.dirFail = generate_tree px pats (FS.dir Entries.nil)
      ∧ (∀ (nm : String) (rest : Entries) (res : List (List String)),
          walkEntries px pats rest = Except.ok res →
          is_excluded (px ++ [nm]) pats = false →
          walkEntries px pats (Entries.cons nm FS.dirFail rest)
            = Except.ok ((px ++ [nm]) :: res)) := by
  intro px pats
  refine ⟨rfl, rfl, ?_⟩
  intro nm rest res hok hex
  rw [walkEntries, hex]
  simp [FS.isDir, generate_tree, hok]

/-- Witness for the nested-unreadable claim at a concrete listing. -/
theorem nested_unreadable_skipped_witness :
    walkEntries [("r")] [] (Entries.cons ("d") FS.dirFail Entries.nil)
      = Except.ok [[("r"), ("d")]] :=
  (nested_unreadable_skipped [("r")] []).2.2 ("d") Entries.nil [] rfl rfl

/-- C9: for a traversal result, written `root ++ t` with `t` the nonempty
component list below the root, the printed indent is the four-character
bar-space block repeated depth minus one times, where the depth is the
number of components between the root and the entry. -/
theorem print_line_indent :
    ∀ (root t : List String) (metaInfo : String), t ≠ [] →
      print_line root (root ++ t) metaInfo
        = some (strRepeat (t.length - 1) "|   " ++ "|--"
            ++ String.intercalate ("/") t ++ metaInfo)
      ∧ (strRepeat (t.length - 1) "|   ").length = 4 * (t.length - 1)
      ∧ (root ++ t).length - root.length = t.length := by
  intro root t m ht
  refine ⟨?_, ?_, by simp⟩
  · simp only [print_line, stripRoot_append]
  · rw [strRepeat_length]
    have h4 : ("|   " : String).length = 4 := rfl
    rw [h4]
    omega

/-- Witness for the indent claim at a depth-two entry. -/
theorem print_line_indent_witness :
    print_line [("r")] ([("r")] ++ [("a"), ("b")]) ("")
      = some (strRepeat ((([("a"), ("b")] : List String)).length - 1) "|   " ++ "|--"
          ++ String.intercalate ("/") [("a"), ("b")] ++ ("")) :=
  (print_line_indent [("r")] [("a"), ("b")] ("") (by simp)).1

/-- C10: a modification timestamp strictly in the future of now makes the
elapsed duration negative, which satisfies the first bucket's comparison,
so the formatter returns just now. -/
theorem future_timestamp_just_now :
    ∀ fileSecs nowSecs : Int, nowSecs < fileSecs →
      format_time fileSecs nowSecs = "just now" := by
  intro f n h
  simp only [format_time]
  rw [if_pos (by omega)]

/-- Witness for the future-timestamp claim one minute ahead of now. -/
theorem future_timestamp_just_now_witness :
    format_time 100 40 = "just now" :=
  future_timestamp_just_now 100 40 (by decide)
